import Mathlib

/-!
Verification of the routing-simulation library: a shallow embedding of the
data model (node data, bit-count keyed section keys, the section map) and the
operations the specification's claims are about (churn/relocation, node
insertion with add-restrictions, merge detection, quorum predicates,
hypergeometric probability, the full-simulation evaluation loop, and the
simple targetted attack strategy), together with theorems settling each claim.

Machine integers (`u32`, `u64`) are modelled as `Nat`; 64-bit values carry a
`< 2^64` bound where bit-level operations need it.  `f64` arithmetic is
modelled by exact rational arithmetic (`Rat`).  Rust functions that can panic
(through `assert!`, `expect`, `unreachable!`) are modelled as `Option`-valued
functions, `none` standing for the panic.
-/

namespace RoutingSims

/-- Data stored for a node: age, churn counter, malicious flag
(`NodeData` in `node.rs`; counters start at 0). -/
structure NodeData where
  age : Nat
  churns : Nat
  is_malicious : Bool
deriving DecidableEq, Repr

/-- `NodeData::incr_age`: increment age by 1. -/
def NodeData.incr_age (d : NodeData) : NodeData :=
  { d with age := d.age + 1 }

/-- The churn-counter increment performed by `NodeData::churn_and_can_age`. -/
def NodeData.bumpChurn (d : NodeData) : NodeData :=
  { d with churns := d.churns + 1 }

/-- The relocation-eligibility test of `NodeData::churn_and_can_age`,
applied after the increment: `churns >= 2^age`. -/
def NodeData.canAge (d : NodeData) : Bool :=
  decide (2 ^ d.age ≤ d.churns)

/-- Node names are `u64` values (`NodeName` in `node.rs`). -/
abbrev NodeName := Nat

/-- A `Group` is a mapping from node names to node data
(`BTreeMap<NodeName, NodeData>` in `net.rs`), modelled as an association
list; the list order stands for the map's iteration order. -/
abbrev Group := List (NodeName × NodeData)

/-- Look a name up in a group (`BTreeMap::get`): the first binding of the
name, if any. -/
def Group.lookupN : Group → NodeName → Option NodeData
  | [], _ => none
  | x :: t, n => if x.1 = n then some x.2 else Group.lookupN t n

/-- Remove the first entry with the given name (`BTreeMap::remove`;
group keys are unique, so at most one entry matches). -/
def Group.removeN : Group → NodeName → Group
  | [], _ => []
  | x :: t, n => if x.1 = n then t else x :: Group.removeN t n

/-- Increment in place the age of the entry with the given name
(`group.get_mut(&name).incr_age()`). -/
def Group.ageAt : Group → NodeName → Group
  | [], _ => []
  | x :: t, n => if x.1 = n then (x.1, x.2.incr_age) :: t else x :: Group.ageAt t n

/-- Insert a binding for a fresh name (`BTreeMap` entry-insert; only used
when the name is absent, so the position in the list is irrelevant to the
map it represents). -/
def Group.insertNode (g : Group) (n : NodeName) (d : NodeData) : Group :=
  g ++ [(n, d)]

/-- The bit length of a `u64` value, counted as the number of exponents
`i < 64` with `2^i ≤ x`; agrees with `Nat.size` on 64-bit values
(`bitLen_eq_size`) and reduces in the kernel. -/
def bitLen (x : Nat) : Nat :=
  (List.range 64).countP (fun i => decide (2 ^ i ≤ x))

/-- `leading_zeros` of a `u64` value: 64 minus the bit length;
`leadingZeros 0 = 64`. -/
def leadingZeros (x : Nat) : Nat := 64 - bitLen x

theorem countP_lt_range (s : Nat) :
    ∀ n : Nat, (List.range n).countP (fun i => decide (i < s)) = min s n := by
  intro n
  induction n with
  | zero => simp
  | succ n ih =>
    rw [List.range_succ, List.countP_append, ih]
    by_cases h : n < s
    · simp only [List.countP_cons, List.countP_nil, h, decide_eq_true_eq, if_pos]
      omega
    · simp only [List.countP_cons, List.countP_nil]
      rw [if_neg (by simpa using h)]
      omega

theorem bitLen_eq_size (x : Nat) (h : x < 2 ^ 64) : bitLen x = Nat.size x := by
  unfold bitLen
  have hsz : Nat.size x ≤ 64 := Nat.size_le.mpr h
  have hcongr : (List.range 64).countP (fun i => decide (2 ^ i ≤ x)) =
      (List.range 64).countP (fun i => decide (i < Nat.size x)) := by
    refine List.countP_congr ?_
    intro i _
    simp only [decide_eq_true_eq]
    exact (Nat.lt_size).symm
  rw [hcongr, countP_lt_range]
  omega

/-- `NameT::common_prefix` for `u64` names: the number of leading bits
shared by the two names, computed as `leading_zeros(a XOR b)`. -/
def commonLen (a b : Nat) : Nat := leadingZeros (a ^^^ b)

/-- `NameT::with_bit`: return a copy of the name with MSB-indexed bit `i`
set to `bit`; an out-of-range index leaves the name unchanged.  Rust's
`!pow_i` on `u64` is complement within 64 bits, i.e. XOR with `2^64 - 1`. -/
def withBit (x i : Nat) (bit : Bool) : Nat :=
  if 64 ≤ i then x
  else
    let pow := 2 ^ (63 - i)
    if bit then x ||| pow else x &&& ((2 ^ 64 - 1) ^^^ pow)

/-- `NameT::set_remaining(n, false)`: keep the first `n` (MSB-indexed) bits
and zero the rest.  Rust computes the mask as `!0 >> n` and takes
`self & !mask`. -/
def setRemainingFalse (x n : Nat) : Nat :=
  if 64 ≤ n then x
  else x &&& ((2 ^ 64 - 1) ^^^ ((2 ^ 64 - 1) >>> n))

/-- A section key: the first `bit_count` bits of a 64-bit name
(the bit-key type of `node.rs`, there spelt with the reserved word). -/
structure Pfx where
  bit_count : Nat
  name : Nat
deriving DecidableEq, Repr

/-- `new(bit_count, name)`: keep the first `bit_count` bits, zero the rest. -/
def Pfx.new (bit_count name : Nat) : Pfx :=
  ⟨bit_count, setRemainingFalse name bit_count⟩

/-- `pushed(bit)`: append a bit at position `bit_count`. -/
def Pfx.pushed (p : Pfx) (bit : Bool) : Pfx :=
  ⟨p.bit_count + 1, withBit p.name p.bit_count bit⟩

/-- `popped()`: drop the last bit (zeroing it); no-op on the empty key. -/
def Pfx.popped (p : Pfx) : Pfx :=
  if p.bit_count = 0 then p
  else ⟨p.bit_count - 1, withBit p.name (p.bit_count - 1) false⟩

/-- `is_compatible`: one key is a prefix of the other. -/
def Pfx.is_compatible (p q : Pfx) : Bool :=
  decide (p.bit_count ≤ commonLen p.name q.name) ||
  decide (q.bit_count ≤ commonLen p.name q.name)

/-- `matches(name)`: the key is a prefix of the given name. -/
def Pfx.matches (p : Pfx) (name : Nat) : Bool :=
  decide (p.bit_count ≤ commonLen p.name name)

/-- The `PartialEq` instance: compatible and of equal bit count. -/
def Pfx.eqRust (p q : Pfx) : Bool :=
  p.is_compatible q && decide (p.bit_count = q.bit_count)

/-- `Ord::cmp` on `u64` names. -/
def cmpNN (a b : Nat) : Ordering :=
  if a < b then .lt else if a = b then .eq else .gt

/-- The `PartialOrd` instance on section keys: equal keys compare equal,
compatible unequal keys are unordered (`None`), and incompatible keys
compare by their (masked) names. -/
def Pfx.cmpOpt (p q : Pfx) : Option Ordering :=
  if p.eqRust q then some .eq
  else if p.is_compatible q then none
  else some (cmpNN p.name q.name)

/-- Well-formed key: at most 64 bits, name a 64-bit value with every bit
at position ≥ `bit_count` zero (low `64 - bit_count` bits clear). -/
def Pfx.wf (p : Pfx) : Prop :=
  p.bit_count ≤ 64 ∧ p.name < 2 ^ 64 ∧
    ∀ j, j < 64 - p.bit_count → p.name.testBit j = false

instance (p : Pfx) : Decidable p.wf := by
  unfold Pfx.wf; infer_instance

/-- A `Network`'s section store: `HashMap<Prefix, Group>` modelled as an
association list with (structurally) distinct keys. -/
abbrev Network := List (Pfx × Group)

/-- Look a section key up in the store (`HashMap::get`): the first binding
of the key, if any. -/
def Network.lookupP : Network → Pfx → Option Group
  | [], _ => none
  | x :: t, p => if x.1 = p then some x.2 else Network.lookupP t p

/-- Replace the group stored under an existing key (`HashMap::get_mut`). -/
def Network.updateP (net : Network) (p : Pfx) (g : Group) : Network :=
  net.map (fun x => if x.1 = p then (p, g) else x)

/-- `Network::find_prefix`: probe bit counts 0..63 and return the first
key `new(bits, name)` present in the store; `none` models the
`unreachable!` panic when no key matches. -/
def Network.findPfx (net : Network) (name : NodeName) : Option Pfx :=
  ((List.range 64).find? (fun bits => net.any (fun x => x.1 = Pfx.new bits name))).map
    (fun bits => Pfx.new bits name)

/-- `Network::need_merge`: the keys of all stored groups whose size is
strictly below the minimum group size. -/
def need_merge (min_group_size : Nat) (net : Network) : List Pfx :=
  (net.filter (fun x => x.2.length < min_group_size)).map (fun x => x.1)

/-- Claim C3, counterexample: a network whose sole group has size exactly
equal to the minimum section size (1).  The claim predicts the group's key
is returned by `need_merge` (size ≤ minimum), but the code omits it: the
comparison in the source is strict. -/
theorem c3_counterexample :
    ¬ (Pfx.new 0 0 ∈ need_merge 1 [(Pfx.new 0 0, [(0, ⟨0, 0, false⟩)])]) ∧
      ([(0, (⟨0, 0, false⟩ : NodeData))] : Group).length ≤ 1 := by
  decide

/-- Claim C3, amended: `need_merge` returns exactly the keys of the groups
whose size is strictly below (not: below or equal to) the minimum section
size. -/
theorem c3_need_merge_strict (m : Nat) (net : Network) (p : Pfx) :
    p ∈ need_merge m net ↔ ∃ g : Group, (p, g) ∈ net ∧ g.length < m := by
  unfold need_merge
  simp only [List.mem_map, List.mem_filter, decide_eq_true_eq]
  constructor
  · rintro ⟨⟨q, g⟩, ⟨hmem, hlt⟩, rfl⟩
    exact ⟨g, hmem, hlt⟩
  · rintro ⟨g, hmem, hlt⟩
    exact ⟨(p, g), ⟨hmem, hlt⟩, rfl⟩

/-- The single pass of `Network::churn` over the group's entries: every
member other than the triggering node has its churn counter incremented
(`churn_and_can_age`), and a running best relocation candidate
`(name, churns)` is threaded through exactly as in the source: an eligible
member replaces the current best only when its churn count is strictly
greater. -/
def churnScanAux (new_node : NodeName) (best : Option (NodeName × Nat)) :
    Group → Group × Option (NodeName × Nat)
  | [] => ([], best)
  | x :: t =>
    if x.1 = new_node then
      let r := churnScanAux new_node best t
      (x :: r.1, r.2)
    else
      let d := x.2.bumpChurn
      let best' :=
        if d.canAge then
          match best with
          | none => some (x.1, d.churns)
          | some q => if q.2 < d.churns then some (x.1, d.churns) else best
        else best
      let r := churnScanAux new_node best' t
      ((x.1, d) :: r.1, r.2)

/-- `Network::churn(prefix, new_node)`, acting on the group stored at
`prefix` (the map lookup is factored out; `expect` cannot fail there).
Returns the updated group together with the relocated node, if any. -/
def churn (min_group_size : Nat) (g : Group) (new_node : NodeName) :
    Group × Option (NodeName × NodeData) :=
  let r := churnScanAux new_node none g
  match r.2 with
  | none => (r.1, none)
  | some c =>
    if r.1.length ≤ min_group_size then (Group.ageAt r.1 c.1, none)
    else
      match Group.lookupN r.1 c.1 with
      | some d => (Group.removeN r.1 c.1, some (c.1, d.incr_age))
      | none => (r.1, none)

/-- Spec-level churn, phase 1 (from the claim's words): every member except
the triggering node has its churn counter incremented by exactly one. -/
def bumped (new_node : NodeName) (g : Group) : Group :=
  g.map (fun x => if x.1 = new_node then x else (x.1, x.2.bumpChurn))

/-- Spec-level churn, phase 2 (from the claim's words): a member is a
relocation candidate exactly when, after the increment, its churn count is
at least `2^age`. -/
def churnCandidates (new_node : NodeName) (g : Group) : Group :=
  (bumped new_node g).filter (fun x => decide (x.1 ≠ new_node) && x.2.canAge)

/-- One step of candidate selection: keep the incumbent unless the new
candidate's churn count is strictly higher. -/
def pickStep (best : Option (NodeName × Nat)) (x : NodeName × NodeData) :
    Option (NodeName × Nat) :=
  match best with
  | none => some (x.1, x.2.churns)
  | some q => if q.2 < x.2.churns then some (x.1, x.2.churns) else best

/-- Spec-level churn, phase 3 (from the claim's words): among all
candidates pick the one with the highest churn count, ties broken in favour
of the earlier one in iteration order. -/
def pickBest (l : Group) : Option (NodeName × Nat) :=
  l.foldl pickStep none

/-- Spec-level churn assembled from the claim's words (with suppression at
size at-or-below the minimum, the amendment forced by `c1_counterexample`):
increment every other member's churn count; collect candidates; pick the
highest-churn candidate (ties to iteration order); if none, return the
bumped group unchanged otherwise; if the group is at or below minimum size,
age the candidate in place and relocate nobody; otherwise remove the
candidate, increment its age and return it. -/
def churnSpec (min_group_size : Nat) (g : Group) (new_node : NodeName) :
    Group × Option (NodeName × NodeData) :=
  let g' := bumped new_node g
  match pickBest (churnCandidates new_node g) with
  | none => (g', none)
  | some c =>
    if g'.length ≤ min_group_size then (Group.ageAt g' c.1, none)
    else
      match Group.lookupN g' c.1 with
      | some d => (Group.removeN g' c.1, some (c.1, d.incr_age))
      | none => (g', none)

theorem churnScanAux_eq (new_node : NodeName) :
    ∀ (g : Group) (best : Option (NodeName × Nat)),
      churnScanAux new_node best g =
        (bumped new_node g, (churnCandidates new_node g).foldl pickStep best)
  | [], best => by
    simp [churnScanAux, bumped, churnCandidates]
  | x :: t, best => by
    by_cases h : x.1 = new_node
    · simp [churnScanAux, bumped, churnCandidates, h,
        churnScanAux_eq new_node t best]
    · by_cases hc : (x.2.bumpChurn).canAge
      · simp only [churnScanAux, bumped, churnCandidates, h, hc, if_neg h,
          if_pos hc, List.map_cons, List.filter_cons]
        simp [h, hc, churnScanAux_eq new_node t, pickStep, churnCandidates,
          bumped]
      · simp only [churnScanAux, bumped, churnCandidates, h, hc, if_neg h,
          List.map_cons, List.filter_cons]
        simp [h, hc, churnScanAux_eq new_node t, churnCandidates, bumped]

/-- Claim C1, counterexample: a bootstrap-phase group of size 2 (containing
the triggering node 0) with minimum group size 3.  The other member becomes
a relocation candidate, the group size differs from the minimum, yet the
code suppresses relocation (returns `none`, ageing the candidate in place),
where the claim's final clause predicts the candidate is removed and
returned: the code suppresses relocation whenever the size is at *or below*
the minimum. -/
theorem c1_counterexample :
    churn 3 [(0, ⟨0, 0, false⟩), (1, ⟨0, 0, false⟩)] 0 =
      ([(0, ⟨0, 0, false⟩), (1, ⟨1, 1, false⟩)], none) ∧
    churnCandidates 0 [(0, ⟨0, 0, false⟩), (1, ⟨0, 0, false⟩)] ≠ [] ∧
    ([(0, (⟨0, 0, false⟩ : NodeData)), (1, ⟨0, 0, false⟩)] : Group).length ≠ 3 := by
  decide

/-- Claim C1, amended ("at minimum size" → "at or below minimum size"):
`churn` behaves exactly as the claim words it — increment every member's
churn counter except the trigger's; a member is a candidate exactly when
its incremented churn count is at least `2^age`; pick the candidate with
the highest churn count with ties broken by iteration order; with no
candidate return `none` leaving all ages unchanged; at or below minimum
size age the chosen candidate in place and return `none`; otherwise remove
it, increment its age by one, and return its old name and data. -/
theorem c1_churn_eq_spec (min_group_size : Nat) (g : Group) (new_node : NodeName) :
    churn min_group_size g new_node = churnSpec min_group_size g new_node := by
  unfold churn churnSpec
  rw [churnScanAux_eq, pickBest]

/-- `SimpleQuorum::quorum_disrupted` (`quorum.rs`): the fraction of good
(non-malicious) members is strictly below the configured proportion.
Nonempty fractions are modelled by exact rational arithmetic; on the empty
group the source computes `0.0/0.0 = NaN` in `f64` and every comparison
against NaN is false, so the predicate returns false there. -/
def quorum_disrupted (p : ℚ) (g : Group) : Bool :=
  if g.length = 0 then false
  else decide (((g.filter (fun x => !x.2.is_malicious)).length : ℚ) / (g.length : ℚ) < p)

/-- `SimpleQuorum::quorum_compromised` (`quorum.rs`): the fraction of
malicious members is at least the configured proportion; on the empty
group the NaN comparison makes the predicate false. -/
def quorum_compromised (p : ℚ) (g : Group) : Bool :=
  if g.length = 0 then false
  else decide (p ≤ ((g.filter (fun x => x.2.is_malicious)).length : ℚ) / (g.length : ℚ))

/-- Claim C5, counterexample: on the empty section — a reachable state, as
`Network::new` creates an empty root group — the source computes
`0.0/0.0 = NaN`, and `NaN >= 0.0` is false, so `quorum_compromised` with
proportion 0.0 is not satisfied there, refuting the claim's "trivially
satisfied for every section". -/
theorem c5_counterexample : quorum_compromised 0 [] = false := by
  decide

/-- Claim C5, amended: `quorum_disrupted` returns true iff the section is
nonempty and the good fraction is strictly below `p`; `quorum_compromised`
returns true iff the section is nonempty and the malicious fraction is at
least `p` (on the empty section both predicates are false, every NaN
comparison failing); with proportion 1 compromise requires every member to
be malicious, and with proportion 0 `quorum_compromised` is satisfied by
every nonempty section. -/
theorem c5_simple_quorum (p : ℚ) (g : Group) :
    (quorum_disrupted p g = true ↔
      (0 < g.length ∧
        ((g.filter (fun x => !x.2.is_malicious)).length : ℚ) / (g.length : ℚ) < p)) ∧
    (quorum_compromised p g = true ↔
      (0 < g.length ∧
        p ≤ ((g.filter (fun x => x.2.is_malicious)).length : ℚ) / (g.length : ℚ))) ∧
    (quorum_compromised 1 g = true → ∀ x ∈ g, x.2.is_malicious = true) ∧
    (0 < g.length → quorum_compromised 0 g = true) := by
  refine ⟨?_, ?_, ?_, ?_⟩
  · unfold quorum_disrupted
    by_cases hlen : g.length = 0
    · simp [hlen]
    · simp [hlen, Nat.pos_of_ne_zero hlen]
  · unfold quorum_compromised
    by_cases hlen : g.length = 0
    · simp [hlen]
    · simp [hlen, Nat.pos_of_ne_zero hlen]
  · intro hcomp x hx
    unfold quorum_compromised at hcomp
    by_cases hlen : g.length = 0
    · rw [if_pos hlen] at hcomp
      cases hcomp
    · rw [if_neg hlen, decide_eq_true_iff] at hcomp
      have h : 0 < g.length := Nat.pos_of_ne_zero hlen
      have hall : (0 : ℚ) < (g.length : ℚ) := by exact_mod_cast h
      rw [le_div_iff₀ hall, one_mul] at hcomp
      have hle : g.length ≤ (g.filter (fun x => x.2.is_malicious)).length := by
        exact_mod_cast hcomp
      have heq : (g.filter (fun x => x.2.is_malicious)).length = g.length :=
        le_antisymm (List.length_filter_le _ g) hle
      exact List.filter_length_eq_length.mp heq x hx
  · intro h
    unfold quorum_compromised
    rw [if_neg (by omega), decide_eq_true_iff]
    exact div_nonneg (by positivity) (by positivity)

/-- Witness for `c5_simple_quorum`: the proportion-0 conjunct at a
concrete one-member malicious section, its nonemptiness hypothesis
discharged. -/
theorem c5_simple_quorum_witness :
    quorum_compromised 0 [(0, (⟨0, 0, true⟩ : NodeData))] = true :=
  (c5_simple_quorum 0 [(0, ⟨0, 0, true⟩)]).2.2.2 (by decide)

/-- The per-replication result pair of `FullSimTool::run_sim`:
`(any_disruption, any_compromise)`. -/
abbrev RunResult := Bool × Bool

/-- The evaluation skeleton of `FullSimTool::run_sim` (`tools.rs`): at the
end of each step every section is tested; if any section is compromised the
replication returns `(true, true)` immediately, otherwise a disruption flag
accumulates and after the final step the result is `(disruption, false)`.
The sequence of end-of-step section snapshots (which in the source depends
on the random-number generator and the attack) is the parameter `steps`;
the section type and the two quorum predicates are abstract, mirroring the
tool's genericity over `Q: Quorum`. -/
def run_sim_eval {G : Type} (comp disr : G → Bool) :
    List (List G) → Bool → RunResult
  | [], disruption => (disruption, false)
  | gs :: rest, disruption =>
    if gs.any comp then (true, true)
    else run_sim_eval comp disr rest (disruption || gs.any disr)

/-- The averaged result of `FullSimTool::calc_p_compromise` over a run of
replications. -/
structure SimResult where
  p_disrupt : ℚ
  p_compromise : ℚ

/-- `FullSimTool::calc_p_compromise` (`tools.rs`): count the replications
reporting disruption and those reporting compromise, and divide each count
by the number of repetitions. -/
def calc_p_compromise (results : List RunResult) : SimResult :=
  ⟨((results.countP (fun r => r.1) : ℚ)) / (results.length : ℚ),
   ((results.countP (fun r => r.2) : ℚ)) / (results.length : ℚ)⟩

theorem run_sim_eval_compromise_implies_disruption {G : Type}
    (comp disr : G → Bool) :
    ∀ (steps : List (List G)) (d : Bool),
      (run_sim_eval comp disr steps d).2 = true →
        (run_sim_eval comp disr steps d).1 = true
  | [], d => by simp [run_sim_eval]
  | gs :: rest, d => by
    by_cases h : gs.any comp
    · simp [run_sim_eval, h]
    · simp only [run_sim_eval, h, if_neg, Bool.false_eq_true]
      exact run_sim_eval_compromise_implies_disruption comp disr rest _

/-- Claim C4: a step with a compromised section makes the replication
return `(true, true)` at once; consequently no replication reports
compromise without disruption, and the averaged `SimResult` over any run of
replications satisfies `p_compromise ≤ p_disrupt`. -/
theorem c4_compromise_le_disrupt {G : Type} (comp disr : G → Bool)
    (histories : List (List (List G))) :
    (∀ (d : Bool) (gs : List G) (rest : List (List G)),
        gs.any comp = true → run_sim_eval comp disr (gs :: rest) d = (true, true)) ∧
    (∀ h ∈ histories,
        (run_sim_eval comp disr h false).2 = true →
          (run_sim_eval comp disr h false).1 = true) ∧
    (calc_p_compromise (histories.map (fun h => run_sim_eval comp disr h false))).p_compromise ≤
      (calc_p_compromise (histories.map (fun h => run_sim_eval comp disr h false))).p_disrupt := by
  refine ⟨fun d gs rest h => by simp [run_sim_eval, h],
    fun h _ => run_sim_eval_compromise_implies_disruption comp disr h false, ?_⟩
  set results := histories.map (fun h => run_sim_eval comp disr h false) with hres
  have hcount : results.countP (fun r => r.2) ≤ results.countP (fun r => r.1) := by
    refine List.countP_mono_left ?_
    intro r hr
    rw [hres, List.mem_map] at hr
    obtain ⟨h, _, rfl⟩ := hr
    exact run_sim_eval_compromise_implies_disruption comp disr h false
  have hcq : ((results.countP (fun r => r.2) : ℚ)) ≤ ((results.countP (fun r => r.1) : ℚ)) := by
    exact_mod_cast hcount
  exact div_le_div_of_nonneg_right hcq (by positivity)

/-- `SimpleTargettedAttack` (`quorum.rs`): the attacker's private state is
an optional target section key. -/
structure SimpleTargettedAttack where
  target : Option Pfx
deriving DecidableEq, Repr

/-- `SimpleTargettedAttack::new`. -/
def SimpleTargettedAttack.new : SimpleTargettedAttack := ⟨none⟩

/-- `SimpleTargettedAttack::split`: when the old key equals the stored
target (per the source's key equality), replace the target by the new key. -/
def SimpleTargettedAttack.split (a : SimpleTargettedAttack)
    (old_pfx new_pfx : Pfx) : SimpleTargettedAttack :=
  match a.target with
  | some t => if t.eqRust old_pfx then ⟨some new_pfx⟩ else a
  | none => a

/-- `SimpleTargettedAttack::reset_node`: `pfx` is the section key of the
newly named malicious node (`net.find_prefix(new_name)`, factored out).
With no target yet, store this key as the target and do not reset; with a
target stored, reset exactly when the node's key differs from it. -/
def SimpleTargettedAttack.reset_node (a : SimpleTargettedAttack)
    (pfx : Pfx) : SimpleTargettedAttack × Bool :=
  match a.target with
  | some t => (a, !(pfx.eqRust t))
  | none => (⟨some pfx⟩, false)

/-- Claim C7: the first consulted malicious node fixes the target (and is
not reset); every later consultation leaves the target unchanged and resets
exactly the nodes whose section key differs from the target; a split of the
target section moves the target to the new key. -/
theorem c7_simple_targetted (p t old_pfx new_pfx : Pfx) :
    (SimpleTargettedAttack.reset_node ⟨none⟩ p = (⟨some p⟩, false)) ∧
    (SimpleTargettedAttack.reset_node ⟨some t⟩ p = (⟨some t⟩, !(p.eqRust t))) ∧
    ((SimpleTargettedAttack.reset_node ⟨some t⟩ p).2 = true ↔ ¬ (p.eqRust t = true)) ∧
    (t.eqRust old_pfx = true →
      SimpleTargettedAttack.split ⟨some t⟩ old_pfx new_pfx = ⟨some new_pfx⟩) ∧
    (t.eqRust old_pfx = false →
      SimpleTargettedAttack.split ⟨some t⟩ old_pfx new_pfx = ⟨some t⟩) ∧
    (SimpleTargettedAttack.split ⟨none⟩ old_pfx new_pfx = ⟨none⟩) := by
  refine ⟨rfl, rfl, ?_, ?_, ?_, rfl⟩
  · simp [SimpleTargettedAttack.reset_node]
  · intro h
    simp [SimpleTargettedAttack.split, h]
  · intro h
    simp [SimpleTargettedAttack.split, h]

/-- Witness for `c7_simple_targetted` at concrete keys: the root key and
its two children. -/
theorem c7_simple_targetted_witness :
    (Pfx.new 1 0).eqRust (Pfx.new 1 0) = true ∧
      SimpleTargettedAttack.split ⟨some (Pfx.new 1 0)⟩ (Pfx.new 1 0) (Pfx.new 2 0) =
        ⟨some (Pfx.new 2 0)⟩ :=
  ⟨by decide, ((c7_simple_targetted (Pfx.new 0 0) (Pfx.new 1 0) (Pfx.new 1 0)
      (Pfx.new 2 0)).2.2.2.1 (by decide))⟩

/-- `choose(n, k)` (`prob.rs`): `n` choose `k` by the multiplicative
identity, after replacing `k` with `min(k, n-k)`; the result accumulates in
`f64`, modelled here as an exact rational.  `none` models the
`assert!(n >= k)` panic. -/
def choose (n k : Nat) : Option ℚ :=
  if k ≤ n then
    some ((List.range' 1 (min k (n - k))).foldl
      (fun acc kp => acc * ((n - kp + 1 : Nat) : ℚ) / ((kp : Nat) : ℚ)) 1)
  else none

/-- One term of the compromise sum: `x` red nodes picked.  Terms with
`x > r` are skipped (contribute nothing); otherwise the term is
`choose(r, x) * choose(n-r, k-x)`, either factor's panic propagating. -/
def probTerm (n r k x : Nat) (acc : Option ℚ) : Option ℚ :=
  match acc with
  | none => none
  | some s =>
    if r < x then some s
    else
      match choose r x, choose (n - r) (k - x) with
      | some a, some b => some (s + a * b)
      | _, _ => none

/-- `prob_compromise(n, r, k, q)` (`prob.rs`): the probability that a
uniform `k`-subset of `n` nodes (`r` of them red) contains at least `q`
red nodes; `none` models the three precondition `assert!` panics and any
panic inside `choose`. -/
def prob_compromise (n r k q : Nat) : Option ℚ :=
  if r ≤ n ∧ q ≤ k ∧ k - q ≤ n - r then
    match (List.range' q (k + 1 - q)).foldl (fun acc x => probTerm n r k x acc)
        (some 0) with
    | none => none
    | some combs =>
      match choose n k with
      | some total => some (combs / total)
      | none => none
  else none

theorem choose_foldl (n : Nat) :
    ∀ m, m ≤ n →
      (List.range' 1 m).foldl
          (fun acc kp => acc * ((n - kp + 1 : Nat) : ℚ) / ((kp : Nat) : ℚ)) 1 =
        (n.choose m : ℚ) := by
  intro m
  induction m with
  | zero => simp
  | succ m ih =>
    intro hm
    rw [List.range'_concat, List.foldl_append, ih (Nat.le_of_succ_le hm)]
    simp only [List.foldl_cons, List.foldl_nil]
    have h1 : n - (1 + 1 * m) + 1 = n - m := by omega
    have h2 : (1 + 1 * m : Nat) = m + 1 := by omega
    rw [h1, h2]
    have hid := Nat.choose_succ_right_eq n m
    have hid' : ((n.choose (m + 1) : ℚ)) * ((m + 1 : Nat) : ℚ) =
        ((n.choose m : ℚ)) * ((n - m : Nat) : ℚ) := by
      exact_mod_cast congrArg (fun z : Nat => (z : ℚ)) hid
    have hm1 : ((m + 1 : Nat) : ℚ) ≠ 0 := by
      exact_mod_cast Nat.succ_ne_zero m
    field_simp
    push_cast at hid'
    linarith [hid']

theorem choose_eq (n k : Nat) (h : k ≤ n) : choose n k = some ((n.choose k : ℚ)) := by
  unfold choose
  rw [if_pos h]
  rcases Nat.le_total k (n - k) with hk | hk
  · rw [Nat.min_eq_left hk, choose_foldl n k h]
  · rw [Nat.min_eq_right hk, choose_foldl n (n - k) (Nat.sub_le n k),
      Nat.choose_symm h]

theorem probTerm_skip (n r k : Nat) (s : ℚ) :
    ∀ l : List Nat, (∀ x ∈ l, r < x) →
      l.foldl (fun acc x => probTerm n r k x acc) (some s) = some s := by
  intro l
  induction l with
  | nil => intro _; rfl
  | cons x t ih =>
    intro h
    have hx : r < x := h x (List.mem_cons_self x t)
    simp only [List.foldl_cons, probTerm, if_pos hx]
    exact ih (fun y hy => h y (List.mem_cons_of_mem x hy))

/-- Claim C6, counterexample: with `r = n` the third precondition
`n - r >= k - q` fails for every `k > q`, so `prob_compromise(5, 5, 3, 1)`
panics (modelled `none`) instead of returning 1 as the claim states for
every `k ≥ q`. -/
theorem c6_counterexample : prob_compromise 5 5 3 1 = none := by
  decide

/-- Claim C6, amended: `prob_compromise(n, 0, k, q) = 0` whenever `q > 0`
(under the preconditions `n ≥ k ≥ q`), and `prob_compromise(n, n, k, q)`
equals 1 only in the sole case its preconditions admit, `k = q` (with
`q ≤ n`). -/
theorem c6_prob_compromise (n k q : Nat) :
    (0 < q → k ≤ n → q ≤ k → prob_compromise n 0 k q = some 0) ∧
    (q ≤ n → prob_compromise n n q q = some 1) := by
  constructor
  · intro hq hkn hqk
    unfold prob_compromise
    rw [if_pos ⟨Nat.zero_le n, hqk, by omega⟩]
    rw [probTerm_skip n 0 k 0 (List.range' q (k + 1 - q)) ?_]
    · rw [choose_eq n k hkn]
      simp
    · intro x hx
      rw [List.mem_range'] at hx
      obtain ⟨i, _, rfl⟩ := hx
      omega
  · intro hqn
    unfold prob_compromise
    rw [if_pos ⟨Nat.le_refl n, Nat.le_refl q, by omega⟩]
    have hrange : q + 1 - q = 1 := by omega
    rw [hrange]
    have h00 : choose (n - n) (q - q) = some 1 := by
      have hnn : n - n = 0 := by omega
      have hqq : q - q = 0 := by omega
      rw [hnn, hqq]
      decide
    have hterm : probTerm n n q q (some 0) =
        some (0 + ((n.choose q : ℚ)) * 1) := by
      simp only [probTerm]
      rw [if_neg (by omega), choose_eq n q hqn, h00]
    simp only [List.range'_one, List.foldl_cons, List.foldl_nil, hterm,
      choose_eq n q hqn]
    have hpos : ((n.choose q : ℚ)) ≠ 0 := by
      have := Nat.choose_pos hqn
      positivity
    rw [zero_add, mul_one, div_self hpos]

/-- Witness for `c6_prob_compromise`: both conjuncts applied at concrete
arguments, `prob_compromise(5, 0, 3, 2) = 0` and
`prob_compromise(4, 4, 2, 2) = 1`. -/
theorem c6_prob_compromise_witness :
    prob_compromise 5 0 3 2 = some 0 ∧ prob_compromise 4 4 2 2 = some 1 :=
  ⟨(c6_prob_compromise 5 3 2).1 (by decide) (by decide) (by decide),
   (c6_prob_compromise 4 2 2).2 (by decide)⟩

theorem withBit_lt (x i : Nat) (b : Bool) (hx : x < 2 ^ 64) (hi : i < 64) :
    withBit x i b < 2 ^ 64 := by
  unfold withBit
  rw [if_neg (by omega)]
  cases b with
  | true =>
    simp only
    exact Nat.or_lt_two_pow hx (Nat.pow_lt_pow_right (by omega) (by omega))
  | false =>
    simp only
    exact Nat.and_lt_two_pow x
      (Nat.xor_lt_two_pow (by omega) (Nat.pow_lt_pow_right (by omega) (by omega)))

theorem withBit_testBit (x i : Nat) (b : Bool) (hx : x < 2 ^ 64) (hi : i < 64)
    (k : Nat) :
    (withBit x i b).testBit k = if k = 63 - i then b else x.testBit k := by
  unfold withBit
  rw [if_neg (by omega)]
  cases b with
  | true =>
    show (x ||| 2 ^ (63 - i)).testBit k = _
    rw [Nat.testBit_lor, Nat.testBit_two_pow]
    by_cases hk : k = 63 - i
    · subst hk
      simp
    · rw [if_neg hk]
      have hne : decide (63 - i = k) = false := by
        simp only [decide_eq_false_iff_not]
        omega
      rw [hne, Bool.or_false]
  | false =>
    show (x &&& ((2 ^ 64 - 1) ^^^ 2 ^ (63 - i))).testBit k = _
    rw [Nat.testBit_land, Nat.testBit_xor, Nat.testBit_two_pow_sub_one,
      Nat.testBit_two_pow]
    by_cases hk : k = 63 - i
    · subst hk
      have h64 : decide (63 - i < 64) = true := by
        simp only [decide_eq_true_eq]
        omega
      simp [h64]
    · rw [if_neg hk]
      have hne : decide (63 - i = k) = false := by
        simp only [decide_eq_false_iff_not]
        omega
      rw [hne]
      by_cases hk64 : k < 64
      · simp [hk64]
      · have hxk : x.testBit k = false :=
          Nat.testBit_lt_two_pow
            (lt_of_lt_of_le hx (Nat.pow_le_pow_right (by omega) (by omega)))
        simp [hk64, hxk]

/-- Claim C9: for every well-formed section key with fewer than 64 bits
(the stated precondition of `pushed`), pushing any bit and popping restores
the original key. -/
theorem c9_pushed_popped (p : Pfx) (h : p.wf) (hlt : p.bit_count < 64) (b : Bool) :
    (p.pushed b).popped = p := by
  obtain ⟨bc, nm⟩ := p
  obtain ⟨hbc, hname, hbits⟩ := h
  simp only at hlt hname hbits
  unfold Pfx.pushed Pfx.popped
  simp only [Nat.add_sub_cancel, if_neg (Nat.succ_ne_zero bc), Pfx.mk.injEq]
  refine ⟨trivial, ?_⟩
  apply Nat.eq_of_testBit_eq
  intro k
  rw [withBit_testBit _ _ _ (withBit_lt nm bc b hname hlt) hlt k,
    withBit_testBit nm bc b hname hlt k]
  by_cases hk : k = 63 - bc
  · subst hk
    rw [if_pos rfl]
    exact (hbits (63 - bc) (by omega)).symm
  · rw [if_neg hk, if_neg hk]

/-- Witness for `c9_pushed_popped` at the empty key and bit 1. -/
theorem c9_pushed_popped_witness :
    (Pfx.new 0 0).wf ∧ (Pfx.new 0 0).bit_count < 64 ∧
      ((Pfx.new 0 0).pushed true).popped = Pfx.new 0 0 :=
  ⟨by decide, by decide, c9_pushed_popped (Pfx.new 0 0) (by decide) (by decide) true⟩

theorem compat_of_name_eq (p q : Pfx) (hp : p.bit_count ≤ 64)
    (h : p.name = q.name) : p.is_compatible q = true := by
  unfold Pfx.is_compatible commonLen leadingZeros
  rw [h, Nat.xor_self]
  have h0 : bitLen 0 = 0 := by decide
  rw [h0]
  have hle : p.bit_count ≤ 64 - 0 := by omega
  simp [hle]

theorem cmpNN_eq_iff (a b : Nat) : cmpNN a b = .eq ↔ a = b := by
  unfold cmpNN
  by_cases hlt : a < b
  · simp only [if_pos hlt]
    constructor
    · intro h
      cases h
    · intro h
      omega
  · rw [if_neg hlt]
    by_cases heq : a = b
    · simp [heq]
    · simp only [if_neg heq]
      constructor
      · intro h
        cases h
      · intro h
        exact absurd h heq

/-- Claim C8, counterexample: the root key and its zero child are
compatible but unequal, and the source's comparison returns `None` — not
one of less, equal, greater — so the ordering is not total. -/
theorem c8_counterexample : Pfx.cmpOpt (Pfx.new 0 0) (Pfx.new 1 0) = none := by
  decide

/-- Claim C8, amended: on well-formed keys the comparison returns equal
exactly when the two keys are compatible with the same bit count; on
compatible but unequal keys it returns no ordering (`None`) — the forced
correction, as the order is not total; and on incompatible keys it orders
strictly (never equal) by the masked names. -/
theorem c8_cmp_opt (p q : Pfx) (hp : p.bit_count ≤ 64) (hq : q.bit_count ≤ 64)
    (hpn : p.name < 2 ^ 64) (hqn : q.name < 2 ^ 64) :
    (p.cmpOpt q = some .eq ↔
      (p.is_compatible q = true ∧ p.bit_count = q.bit_count)) ∧
    (p.is_compatible q = true → p.eqRust q = false → p.cmpOpt q = none) ∧
    (p.is_compatible q = false →
      p.cmpOpt q = some (cmpNN p.name q.name) ∧ cmpNN p.name q.name ≠ .eq) := by
  refine ⟨⟨?_, ?_⟩, ?_, ?_⟩
  · intro h
    unfold Pfx.cmpOpt at h
    by_cases he : p.eqRust q
    · unfold Pfx.eqRust at he
      simp only [Bool.and_eq_true, decide_eq_true_eq] at he
      exact he
    · rw [if_neg he] at h
      by_cases hc : p.is_compatible q
      · rw [if_pos hc] at h
        cases h
      · rw [if_neg hc] at h
        have hname : p.name = q.name := by
          have := Option.some.inj h
          exact (cmpNN_eq_iff p.name q.name).mp this
        exact absurd (compat_of_name_eq p q hp hname) hc
  · intro ⟨hc, hbc⟩
    unfold Pfx.cmpOpt
    rw [if_pos (by unfold Pfx.eqRust; simp [hc, hbc])]
  · intro hc hne
    unfold Pfx.cmpOpt
    rw [if_neg (by simp [hne]), if_pos hc]
  · intro hc
    unfold Pfx.cmpOpt
    have hne : p.eqRust q = false := by
      unfold Pfx.eqRust
      simp [hc]
    rw [if_neg (by simp [hne]), if_neg (by simp [hc])]
    refine ⟨rfl, ?_⟩
    intro habs
    have hname : p.name = q.name := (cmpNN_eq_iff p.name q.name).mp habs
    rw [compat_of_name_eq p q hp hname] at hc
    cases hc

/-- Witness for `c8_cmp_opt`: two incompatible one-bit keys compare by
name and not equal. -/
theorem c8_cmp_opt_witness :
    Pfx.cmpOpt (Pfx.new 1 0) (Pfx.new 1 (2 ^ 63)) =
        some (cmpNN (Pfx.new 1 0).name (Pfx.new 1 (2 ^ 63)).name) ∧
      cmpNN (Pfx.new 1 0).name (Pfx.new 1 (2 ^ 63)).name ≠ .eq :=
  (c8_cmp_opt (Pfx.new 1 0) (Pfx.new 1 (2 ^ 63)) (by decide) (by decide)
    (by decide) (by decide)).2.2 (by decide)

/-- `RestrictOnePerAge::can_add` (`net.rs`): nodes of age above 1 are
always admitted; otherwise admit only while fewer than two members of the
same age are present. -/
def RestrictOnePerAge.can_add (node_data : NodeData) (g : Group) : Bool :=
  if 1 < node_data.age then true
  else decide ((g.filter (fun x => x.2.age = node_data.age)).length < 2)

/-- `Network::add_node` (`net.rs`): find the section for the name, reject
(returning the data) when the group is larger than the minimum size and
the add-restriction refuses the data, or when the name collides; otherwise
insert.  `none` models the panics (`unreachable!` in `find_prefix`, the
`expect` on the lookup). -/
def add_node (canAdd : NodeData → Group → Bool) (min_group_size : Nat)
    (net : Network) (node_name : NodeName) (node_data : NodeData) :
    Option (Network × (Pfx ⊕ NodeData)) :=
  match net.findPfx node_name with
  | none => none
  | some p =>
    match net.lookupP p with
    | none => none
    | some g =>
      if min_group_size < g.length ∧ canAdd node_data g = false then
        some (net, Sum.inr node_data)
      else
        match g.lookupN node_name with
        | some _ => some (net, Sum.inr node_data)
        | none =>
          some (net.updateP p (g.insertNode node_name node_data), Sum.inl p)

theorem commonLen_ge_iff (a b c : Nat) (ha : a < 2 ^ 64) (hb : b < 2 ^ 64)
    (hc : c ≤ 64) : c ≤ commonLen a b ↔ a ^^^ b < 2 ^ (64 - c) := by
  unfold commonLen leadingZeros
  have hxor : a ^^^ b < 2 ^ 64 := Nat.xor_lt_two_pow ha hb
  rw [bitLen_eq_size _ hxor]
  have hsz : Nat.size (a ^^^ b) ≤ 64 := Nat.size_le.mpr hxor
  constructor
  · intro h
    exact Nat.size_le.mp (by omega)
  · intro h
    have := Nat.size_le.mpr h
    omega

theorem setRemaining_lt (x n : Nat) (hx : x < 2 ^ 64) :
    setRemainingFalse x n < 2 ^ 64 := by
  unfold setRemainingFalse
  by_cases hn : 64 ≤ n
  · rw [if_pos hn]
    exact hx
  · rw [if_neg hn]
    refine Nat.and_lt_two_pow x (Nat.xor_lt_two_pow (by omega) ?_)
    calc (2 ^ 64 - 1) >>> n = (2 ^ 64 - 1) / 2 ^ n := Nat.shiftRight_eq_div_pow _ _
    _ ≤ 2 ^ 64 - 1 := Nat.div_le_self _ _
    _ < 2 ^ 64 := by omega

theorem setRemaining_xor_lt (x n : Nat) (hx : x < 2 ^ 64) :
    (setRemainingFalse x n) ^^^ x < 2 ^ (64 - n) := by
  apply Nat.lt_pow_two_of_testBit
  intro i hi
  unfold setRemainingFalse
  by_cases hn : 64 ≤ n
  · rw [if_pos hn, Nat.xor_self]
    exact Nat.zero_testBit i
  · rw [if_neg hn, Nat.testBit_xor, Nat.testBit_land, Nat.testBit_xor,
      Nat.testBit_shiftRight, Nat.testBit_two_pow_sub_one,
      Nat.testBit_two_pow_sub_one]
    by_cases hi64 : i < 64
    · have h1 : decide (i < 64) = true := by
        simp only [decide_eq_true_eq]
        omega
      have h2 : decide (n + i < 64) = false := by
        simp only [decide_eq_false_iff_not]
        omega
      rw [h1, h2]
      cases hxi : x.testBit i <;> rfl
    · have hxk : x.testBit i = false :=
        Nat.testBit_lt_two_pow
          (lt_of_lt_of_le hx (Nat.pow_le_pow_right (by omega) (by omega)))
      rw [hxk]
      have h1 : decide (i < 64) = false := by
        simp only [decide_eq_false_iff_not]
        omega
      have h2 : decide (n + i < 64) = false := by
        simp only [decide_eq_false_iff_not]
        omega
      rw [h1, h2]
      rfl

theorem new_matches (bits name : Nat) (hb : bits ≤ 64) (hn : name < 2 ^ 64) :
    (Pfx.new bits name).matches name = true := by
  unfold Pfx.new Pfx.matches
  simp only [decide_eq_true_eq]
  rw [commonLen_ge_iff _ _ bits (setRemaining_lt name bits hn) hn hb]
  exact setRemaining_xor_lt name bits hn

theorem commonLen_comm (a b : Nat) : commonLen a b = commonLen b a := by
  unfold commonLen
  rw [Nat.xor_comm]

theorem is_compatible_comm (p q : Pfx) :
    p.is_compatible q = q.is_compatible p := by
  unfold Pfx.is_compatible
  rw [commonLen_comm, Bool.or_comm]

theorem matches_compatible (p q : Pfx) (name : Nat)
    (hpb : p.bit_count ≤ 64) (hqb : q.bit_count ≤ 64)
    (hpn : p.name < 2 ^ 64) (hqn : q.name < 2 ^ 64) (hn : name < 2 ^ 64)
    (hp : p.matches name = true) (hq : q.matches name = true) :
    p.is_compatible q = true := by
  unfold Pfx.matches at hp hq
  rw [decide_eq_true_eq] at hp hq
  rw [commonLen_ge_iff _ _ _ hpn hn hpb] at hp
  rw [commonLen_ge_iff _ _ _ hqn hn hqb] at hq
  have hsplit : p.name ^^^ q.name = (p.name ^^^ name) ^^^ (name ^^^ q.name) := by
    rw [← Nat.xor_assoc, Nat.xor_assoc p.name name name, Nat.xor_self,
      Nat.xor_zero]
  unfold Pfx.is_compatible
  rcases Nat.le_total p.bit_count q.bit_count with hle | hle
  · have hq' : name ^^^ q.name < 2 ^ (64 - p.bit_count) := by
      rw [Nat.xor_comm]
      exact lt_of_lt_of_le hq (Nat.pow_le_pow_right (by omega) (by omega))
    have : p.name ^^^ q.name < 2 ^ (64 - p.bit_count) := by
      rw [hsplit]
      exact Nat.xor_lt_two_pow hp hq'
    have hcl : p.bit_count ≤ commonLen p.name q.name :=
      (commonLen_ge_iff _ _ _ hpn hqn hpb).mpr this
    simp [hcl]
  · have hp' : p.name ^^^ name < 2 ^ (64 - q.bit_count) :=
      lt_of_lt_of_le hp (Nat.pow_le_pow_right (by omega) (by omega))
    have hq' : name ^^^ q.name < 2 ^ (64 - q.bit_count) := by
      rw [Nat.xor_comm]
      exact hq
    have : p.name ^^^ q.name < 2 ^ (64 - q.bit_count) := by
      rw [hsplit]
      exact Nat.xor_lt_two_pow hp' hq'
    have hcl : q.bit_count ≤ commonLen p.name q.name :=
      (commonLen_ge_iff _ _ _ hpn hqn hqb).mpr this
    simp [hcl]

theorem findPfx_inv (net : Network) (name : NodeName) (p : Pfx)
    (h : net.findPfx name = some p) :
    ∃ bits, bits < 64 ∧ p = Pfx.new bits name ∧ ∃ x ∈ net, x.1 = p := by
  unfold Network.findPfx at h
  cases hf : (List.range 64).find?
      (fun bits => net.any (fun x => x.1 = Pfx.new bits name)) with
  | none => rw [hf] at h; cases h
  | some bits =>
    rw [hf] at h
    have hp : p = Pfx.new bits name := (Option.some.inj h).symm
    have hmem : bits ∈ List.range 64 := List.mem_of_find?_eq_some hf
    have hany := List.find?_some hf
    simp only [List.any_eq_true] at hany
    obtain ⟨x, hx, hxp⟩ := hany
    rw [decide_eq_true_eq] at hxp
    exact ⟨bits, List.mem_range.mp hmem, hp, x, hx, by rw [hp]; exact hxp⟩

theorem lookupP_isSome_of_mem (net : Network) (p : Pfx)
    (h : ∃ x ∈ net, x.1 = p) : ∃ g, net.lookupP p = some g := by
  induction net with
  | nil => obtain ⟨x, hx, _⟩ := h; cases hx
  | cons y t ih =>
    by_cases hy : y.1 = p
    · exact ⟨y.2, by simp [Network.lookupP, hy]⟩
    · obtain ⟨x, hx, hxp⟩ := h
      rcases List.mem_cons.mp hx with rfl | hxt
      · exact absurd hxp hy
      · obtain ⟨g, hg⟩ := ih ⟨x, hxt, hxp⟩
        exact ⟨g, by simp [Network.lookupP, hy, hg]⟩

theorem mem_of_lookupP (net : Network) (p : Pfx) (g : Group)
    (h : net.lookupP p = some g) : (p, g) ∈ net := by
  induction net with
  | nil => cases h
  | cons y t ih =>
    unfold Network.lookupP at h
    by_cases hy : y.1 = p
    · rw [if_pos hy] at h
      have heq : y = (p, g) := by
        obtain ⟨y1, y2⟩ := y
        simp only at hy
        cases Option.some.inj h
        rw [hy]
      rw [← heq]
      exact List.mem_cons_self y t
    · exact List.mem_cons_of_mem y (ih (by rwa [if_neg hy] at h))

theorem updateP_keys (net : Network) (p : Pfx) (g : Group) :
    (net.updateP p g).map (fun x => x.1) = net.map (fun x => x.1) := by
  unfold Network.updateP
  rw [List.map_map]
  refine List.map_congr_left ?_
  intro x _
  by_cases hx : x.1 = p
  · simp [hx]
  · simp [hx]

theorem lookupP_updateP (net : Network) (p q : Pfx) (g : Group) :
    (net.updateP p g).lookupP q =
      if q = p then (net.lookupP p).map (fun _ => g) else net.lookupP q := by
  induction net with
  | nil =>
    by_cases hq : q = p <;> simp [Network.updateP, Network.lookupP, hq]
  | cons y t ih =>
    have ih' : (Network.updateP t p g).lookupP q =
        if q = p then (Network.lookupP t p).map (fun _ => g)
        else Network.lookupP t q := ih
    by_cases hy : y.1 = p
    · by_cases hq : q = p
      · subst hq
        simp [Network.updateP, Network.lookupP, hy]
      · have hq' : ¬ p = q := fun h => hq h.symm
        have hyq : ¬ y.1 = q := by rw [hy]; exact hq'
        simp only [Network.updateP, List.map_cons, if_pos hy, Network.lookupP,
          if_neg hq', if_neg hyq, if_neg hq]
        simp only [Network.updateP] at ih'
        rw [ih', if_neg hq]
    · by_cases hq : q = p
      · subst hq
        simp only [Network.updateP, List.map_cons, if_neg hy, Network.lookupP,
          if_neg hy, if_pos rfl]
        simp only [Network.updateP] at ih'
        rw [ih']
      · by_cases hyq : y.1 = q
        · simp only [Network.updateP, List.map_cons, if_neg hy, Network.lookupP,
            if_pos hyq, if_neg hq]
        · simp only [Network.updateP, List.map_cons, if_neg hy, Network.lookupP,
            if_neg hyq, if_neg hq]
          simp only [Network.updateP] at ih'
          rw [ih', if_neg hq]

/-- Claim C10: under the documented store invariants (well-formed,
pairwise-incompatible section keys) and a 64-bit name, every non-panicking
`add_node` call either fails returning the node's data with the network
untouched, or succeeds having inserted exactly that one node into the
single group whose key matches the name, leaving the key set and every
other group unchanged. -/
theorem c10_add_node_frame (canAdd : NodeData → Group → Bool)
    (m : Nat) (net : Network) (name : NodeName) (data : NodeData)
    (out : Network × (Pfx ⊕ NodeData))
    (hwf : ∀ x ∈ net, Pfx.wf x.1)
    (hdisj : (net.map (fun x => x.1)).Pairwise
      (fun a b => a.is_compatible b = false))
    (hname : name < 2 ^ 64)
    (hout : add_node canAdd m net name data = some out) :
    (∀ d, out.2 = Sum.inr d → d = data ∧ out.1 = net) ∧
    (∀ p, out.2 = Sum.inl p →
      p.matches name = true ∧
      (∀ q, q ∈ net.map (fun x => x.1) → q.matches name = true → q = p) ∧
      out.1.map (fun x => x.1) = net.map (fun x => x.1) ∧
      (∃ g, net.lookupP p = some g ∧ g.lookupN name = none ∧
        out.1.lookupP p = some (g.insertNode name data)) ∧
      (∀ q, q ≠ p → out.1.lookupP q = net.lookupP q)) := by
  unfold add_node at hout
  split at hout
  · cases hout
  · rename_i p0 hfp
    split at hout
    · cases hout
    · rename_i g0 hlk
      split at hout
      · cases Option.some.inj hout
        refine ⟨?_, ?_⟩
        · intro d hd
          cases hd
          exact ⟨rfl, rfl⟩
        · intro p hp
          simp at hp
      · split at hout
        · cases Option.some.inj hout
          refine ⟨?_, ?_⟩
          · intro d hd
            cases hd
            exact ⟨rfl, rfl⟩
          · intro p hp
            simp at hp
        · rename_i hcol
          cases Option.some.inj hout
          obtain ⟨bits, hb64, hpnew, x, hxmem, hxp⟩ := findPfx_inv net name p0 hfp
          have hp0wf : Pfx.wf p0 := hxp ▸ hwf x hxmem
          have hp0m : p0.matches name = true := by
            rw [hpnew]
            exact new_matches bits name (Nat.le_of_lt hb64) hname
          refine ⟨?_, ?_⟩
          · intro d hd
            simp at hd
          · intro p hp
            have hpp : p0 = p := by
              simpa using hp
            subst hpp
            refine ⟨hp0m, ?_, updateP_keys net p0 _, ?_, ?_⟩
            · intro q hq hqm
              obtain ⟨y, hy, rfl⟩ := List.mem_map.mp hq
              have hqwf : Pfx.wf y.1 := hwf y hy
              by_contra hne
              have hsymm : Symmetric (fun a b : Pfx => a.is_compatible b = false) := by
                intro a b hab
                rw [is_compatible_comm]
                exact hab
              have hp0mem : p0 ∈ net.map (fun x => x.1) :=
                List.mem_map.mpr ⟨x, hxmem, hxp⟩
              have hincomp : y.1.is_compatible p0 = false :=
                hdisj.forall hsymm (List.mem_map.mpr ⟨y, hy, rfl⟩) hp0mem hne
              have hcomp : y.1.is_compatible p0 = true :=
                matches_compatible y.1 p0 name hqwf.1 hp0wf.1 hqwf.2.1
                  hp0wf.2.1 hname hqm hp0m
              rw [hcomp] at hincomp
              cases hincomp
            · refine ⟨g0, hlk, hcol, ?_⟩
              rw [lookupP_updateP, if_pos rfl, hlk]
              rfl
            · intro q hqne
              rw [lookupP_updateP, if_neg hqne]

/-- Witness for `c10_add_node_frame`: inserting name 3 into a fresh
one-section network of minimum size 8. -/
theorem c10_add_node_frame_witness :
    (Pfx.new 0 0).matches 3 = true ∧
      ([(Pfx.new 0 0, Group.insertNode [] 3 ⟨0, 0, false⟩)] : Network).map
          (fun x => x.1) =
        ([(Pfx.new 0 0, ([] : Group))] : Network).map (fun x => x.1) := by
  have h := c10_add_node_frame RestrictOnePerAge.can_add 8
    [(Pfx.new 0 0, ([] : Group))] 3 ⟨0, 0, false⟩
    ([(Pfx.new 0 0, Group.insertNode [] 3 ⟨0, 0, false⟩)], Sum.inl (Pfx.new 0 0))
    (by decide) (by decide) (by decide) (by decide)
  have h3 := h.2 (Pfx.new 0 0) rfl
  exact ⟨h3.1, h3.2.2.1⟩

theorem add_node_eq (canAdd : NodeData → Group → Bool) (m : Nat)
    (net : Network) (name : NodeName) (data : NodeData) (p : Pfx) (g : Group)
    (hfp : net.findPfx name = some p) (hg : net.lookupP p = some g) :
    add_node canAdd m net name data =
      (if m < g.length ∧ canAdd data g = false then some (net, Sum.inr data)
       else match g.lookupN name with
            | some _ => some (net, Sum.inr data)
            | none => some (net.updateP p (g.insertNode name data), Sum.inl p)) := by
  unfold add_node
  simp only [hfp, hg]

/-- Claim C2, counterexample: minimum size 1, one section holding two age-0
nodes, a fresh age-0 node under a non-colliding name.  The claim's
acceptance condition holds — no collision and the section exceeds minimum
size — yet the code rejects: the restriction is consulted (and refuses a
third same-age node) precisely when the section exceeds the minimum, the
opposite arrangement from the claim's. -/
theorem c2_counterexample :
    Group.lookupN [(0, ⟨0, 0, false⟩), (1, ⟨0, 0, false⟩)] 5 = none ∧
    1 < ([(0, (⟨0, 0, false⟩ : NodeData)), (1, ⟨0, 0, false⟩)] : Group).length ∧
    add_node RestrictOnePerAge.can_add 1
        [(Pfx.new 0 0, [(0, ⟨0, 0, false⟩), (1, ⟨0, 0, false⟩)])] 5 ⟨0, 0, false⟩ =
      some ([(Pfx.new 0 0, [(0, ⟨0, 0, false⟩), (1, ⟨0, 0, false⟩)])],
        Sum.inr ⟨0, 0, false⟩) := by
  decide

/-- Claim C2, amended: `add_node` inserts into the section found for the
name and succeeds exactly when the name does not collide and either the
section is at or below `min_section_size` or the add-restriction accepts
the data; on failure the data comes back in the error.  Under the canonical
restriction, a *third* insertion of age ≤ 1 nodes of the same age is
rejected when the section *exceeds* minimum size. -/
theorem c2_add_node_accept (canAdd : NodeData → Group → Bool) (m : Nat)
    (net : Network) (name : NodeName) (data : NodeData) (p : Pfx) (g : Group)
    (hfp : net.findPfx name = some p) (hg : net.lookupP p = some g) :
    ((∃ net', add_node canAdd m net name data = some (net', Sum.inl p)) ↔
      (g.lookupN name = none ∧ (g.length ≤ m ∨ canAdd data g = true))) ∧
    ((¬ (g.lookupN name = none ∧ (g.length ≤ m ∨ canAdd data g = true))) →
      add_node canAdd m net name data = some (net, Sum.inr data)) ∧
    (data.age ≤ 1 → 2 ≤ (g.filter (fun x => x.2.age = data.age)).length →
      m < g.length →
      add_node RestrictOnePerAge.can_add m net name data =
        some (net, Sum.inr data)) := by
  have hbase := add_node_eq canAdd m net name data p g hfp hg
  refine ⟨⟨?_, ?_⟩, ?_, ?_⟩
  · rintro ⟨net', hnet'⟩
    rw [hbase] at hnet'
    by_cases hrej : m < g.length ∧ canAdd data g = false
    · rw [if_pos hrej] at hnet'
      simp at hnet'
    · rw [if_neg hrej] at hnet'
      cases hcol : g.lookupN name with
      | some d0 =>
        rw [hcol] at hnet'
        simp at hnet'
      | none =>
        refine ⟨rfl, ?_⟩
        by_cases hca : canAdd data g = true
        · exact Or.inr hca
        · have hlen : ¬ m < g.length := fun hl =>
            hrej ⟨hl, Bool.not_eq_true _ ▸ hca⟩
          exact Or.inl (by omega)
  · rintro ⟨hcol, hok⟩
    have hrej : ¬ (m < g.length ∧ canAdd data g = false) := by
      rintro ⟨h1, h2⟩
      rcases hok with hlen | hca
      · omega
      · rw [hca] at h2
        cases h2
    refine ⟨net.updateP p (g.insertNode name data), ?_⟩
    rw [hbase, if_neg hrej, hcol]
  · intro h
    rw [hbase]
    by_cases hrej : m < g.length ∧ canAdd data g = false
    · rw [if_pos hrej]
    · rw [if_neg hrej]
      cases hcol : g.lookupN name with
      | some d0 => rfl
      | none =>
        exact absurd ⟨hcol, by
          by_cases hca : canAdd data g = true
          · exact Or.inr hca
          · have hlen : ¬ m < g.length := fun hl =>
              hrej ⟨hl, Bool.not_eq_true _ ▸ hca⟩
            exact Or.inl (by omega)⟩ h
  · intro hage hcount hlen
    have hca : RestrictOnePerAge.can_add data g = false := by
      unfold RestrictOnePerAge.can_add
      rw [if_neg (by omega)]
      simp only [decide_eq_false_iff_not]
      omega
    have hbase' := add_node_eq RestrictOnePerAge.can_add m net name data p g hfp hg
    rw [hbase', if_pos ⟨hlen, hca⟩]

/-- Witness for `c2_add_node_accept`: the canonical-restriction rejection
at a concrete two-member section of age-0 nodes with minimum size 1. -/
theorem c2_add_node_accept_witness :
    add_node RestrictOnePerAge.can_add 1
        [(Pfx.new 0 0, [(0, ⟨0, 0, false⟩), (1, ⟨0, 0, false⟩)])] 6 ⟨0, 0, false⟩ =
      some ([(Pfx.new 0 0, [(0, ⟨0, 0, false⟩), (1, ⟨0, 0, false⟩)])],
        Sum.inr ⟨0, 0, false⟩) :=
  (c2_add_node_accept RestrictOnePerAge.can_add 1
    [(Pfx.new 0 0, [(0, ⟨0, 0, false⟩), (1, ⟨0, 0, false⟩)])] 6 ⟨0, 0, false⟩
    (Pfx.new 0 0) [(0, ⟨0, 0, false⟩), (1, ⟨0, 0, false⟩)]
    (by decide) (by decide)).2.2 (by decide) (by decide) (by decide)
